import Mathlib

/-!
Verification of the ninja build-plan emitter (`src/ninja.cc`) of the kati
Makefile-to-ninja compiler.  Strings are modelled as `List Char`; the C helper
functions on `StringPiece` (substring search, trimming, extension stripping)
are embedded as executable Lean functions, loops are embedded either as
structural recursion or with an explicit fuel argument that the C termination
argument bounds.
-/

/-- The NUL character, used by the C code as the "no quote is open" marker. -/
def nulChar : Char := Char.ofNat 0

/-- C `isspace` for the characters that can occur in command text. -/
def isSpaceC (c : Char) : Bool :=
  c == ' ' || c == '\t' || c == '\n' || c == Char.ofNat 11 || c == Char.ofNat 12 || c == '\r'

/-- `StringPiece::find(pat)`: index of the first occurrence of `pat`, if any. -/
def listFind (l pat : List Char) : Option Nat :=
  if pat.isPrefixOf l then some 0
  else
    match l with
    | [] => none
    | _ :: rest => (listFind rest pat).map (· + 1)

/-- `TrimLeftSpace` (strutil helper, external to the given sources).
Modelled from the spec: command-line flag arguments are read after skipping
the blank run following the flag, so leading spaces and tabs are dropped. -/
def trimLeftSpace (l : List Char) : List Char :=
  l.dropWhile (fun c => c == ' ' || c == '\t')

/-- `val.find_first_of(" \t")` followed by `val.substr(0, index)`:
the argument token extends up to the first space or tab. -/
def takeArgToken (l : List Char) : List Char :=
  l.takeWhile (fun c => c != ' ' && c != '\t')

/-- `FindCommandLineFlag` (ninja.cc): the flag's position, except that an
occurrence at position 0 counts as not found. -/
def findCommandLineFlag (cmd name : List Char) : Option Nat :=
  match listFind cmd name with
  | none => none
  | some 0 => none
  | some i => some i

/-- The skip-repeated-occurrences loop of `FindCommandLineFlagWithArg`,
with fuel; each iteration shortens `val` by at least `name.length ≥ 1`,
so `val.length + 1` fuel is always enough. -/
def flagArgLoop : Nat → List Char → List Char → List Char
  | 0, _, val => val
  | fuel + 1, name, val =>
    match listFind val name with
    | none => val
    | some j => flagArgLoop fuel name (trimLeftSpace (val.drop (j + name.length)))

/-- `FindCommandLineFlagWithArg` (ninja.cc): the argument of the last
occurrence of the flag `name`, or `[]` when the flag is absent. -/
def findCommandLineFlagWithArg (cmd name : List Char) : List Char :=
  match findCommandLineFlag cmd name with
  | none => []
  | some idx =>
    let val := trimLeftSpace (cmd.drop (idx + name.length))
    takeArgToken (flagArgLoop (val.length + 1) name val)

/-- `StripExt` (strutil helper, external to the given sources).
Modelled from the spec: the depfile is derived "by replacing its extension",
i.e. everything from the last dot on is removed; a name without a dot is kept. -/
def stripExt (s : List Char) : List Char :=
  match go s.reverse with
  | none => s
  | some r => r.reverse
where
  go : List Char → Option (List Char)
    | [] => none
    | c :: rest => if c == '.' then some rest else go rest

/-- `Basename` (strutil helper, external to the given sources).
Modelled from the spec: the file-name component after the last slash. -/
def basenameOf (s : List Char) : List Char :=
  if s.contains '/' then (s.reverse.takeWhile (fun c => c != '/')).reverse else s

/-- `GetDepfileFromCommandImpl` (ninja.cc): core depfile detection from the
`-MD`/`-MMD`, `-c`, `-MF` and `-o` flags.  `none` both for "no depfile" and for
the `-o`-missing error report (the code logs an error and returns false). -/
def getDepfileFromCommandImpl (cmd : List Char) : Option (List Char) :=
  if (findCommandLineFlag cmd " -MD".data = none ∧
      findCommandLineFlag cmd " -MMD".data = none) ∨
     findCommandLineFlag cmd " -c".data = none then
    none
  else
    let mf := findCommandLineFlagWithArg cmd " -MF".data
    if mf ≠ [] then some mf
    else
      let o := findCommandLineFlagWithArg cmd " -o".data
      if o = [] then none
      else some (stripExt o ++ ".d".data)

/-- `GetDepfileFromCommand` (ninja.cc): full detection with the Android
special cases; returns the possibly rewritten command and the depfile.
The `.P`-pattern branch whose `rm -f` snippet is missing aborts in the code
(ERROR); that abort is also modelled as `none`. -/
def getDepfileFromCommand (cmd : List Char) : Option (List Char × List Char) :=
  match getDepfileFromCommandImpl cmd with
  | none => none
  | some out =>
    if listFind cmd "bin/llvm-rs-cc ".data ≠ none then none
    else
      let p := stripExt out ++ ".P".data
      if listFind cmd p ≠ none then
        let rmf := "; rm -f ".data ++ out
        match listFind cmd rmf with
        | none => none
        | some i => some (cmd.take i ++ cmd.drop (i + rmf.length), out)
      else
        let asm := '/' :: (stripExt (basenameOf out) ++ ".s".data)
        if listFind cmd asm ≠ none then none
        else
          some (cmd ++ "&& cp ".data ++ out ++ [' '] ++ out ++ ".tmp ".data,
                out ++ ".tmp".data)

example : getDepfileFromCommandImpl ("cc -c -MD -o out.o".data) = some ("out.d".data) := by decide
example : getDepfileFromCommandImpl ("cc -c -MD -MF dep.d -o out.o".data) = some ("dep.d".data) := by decide
example : getDepfileFromCommandImpl ("-c -MD -o out.o".data) = none := by decide
example : getDepfileFromCommand ("cc -c -MD -o out.o".data) =
    some ("cc -c -MD -o out.o&& cp out.d out.d.tmp ".data, "out.d.tmp".data) := by decide

/-- State of the `TranslateCommand` scan loop (ninja.cc:270-274):
the output buffer, the `prev_backslash` flag, the previous character
(initially a space so a leading comment is stripped), and the currently
open quote character (`nulChar` when no quote is open). -/
structure ScanSt where
  buf : List Char
  prevBackslash : Bool
  prevChar : Char
  quote : Char
deriving DecidableEq, Repr

/-- The common tail of each loop iteration (ninja.cc:319-325): update
`prev_backslash` and `prev_char` for the character just processed. -/
def scanUpd (st : ScanSt) (c : Char) (buf : List Char) (q : Char) : ScanSt :=
  { buf := buf
    prevBackslash := if c == '\\' then !st.prevBackslash else false
    prevChar := c
    quote := q }

/-- The inner comment-skipping loop `while (in[1] && *in != '\n') in++;`
(ninja.cc:280-281), entered at the `#`: returns the character the loop stops
on (a newline, or the last character of the input) and the rest after it. -/
def skipComment : Char → List Char → Char × List Char
  | cur, [] => (cur, [])
  | cur, x :: rest => if cur == '\n' then (cur, x :: rest) else skipComment x rest

/-- The `TranslateCommand` scan (ninja.cc:276-326), one fuel unit per
iteration of the `for` loop; each iteration consumes at least one input
character, so `input.length + 1` fuel always suffices. -/
def scanLoop : Nat → ScanSt → List Char → ScanSt
  | 0, st, _ => st
  | _ + 1, st, [] => st
  | fuel + 1, st, c :: rest =>
    if c == '#' then
      if st.quote == nulChar && isSpaceC st.prevChar then
        let (cur, rest2) := skipComment c rest
        scanLoop fuel (scanUpd st cur st.buf st.quote) rest2
      else scanLoop fuel (scanUpd st c (st.buf ++ [c]) st.quote) rest
    else if c == '\'' || c == '"' || c == '`' then
      let q :=
        if st.quote != nulChar then (if st.quote == c then nulChar else st.quote)
        else if !st.prevBackslash then c
        else st.quote
      scanLoop fuel (scanUpd st c (st.buf ++ [c]) q) rest
    else if c == '$' then scanLoop fuel (scanUpd st c (st.buf ++ "$$".data) st.quote) rest
    else if c == '\n' then
      let buf := if st.prevBackslash then st.buf.dropLast else st.buf ++ [' ']
      scanLoop fuel (scanUpd st c buf st.quote) rest
    else scanLoop fuel (scanUpd st c (st.buf ++ [c]) st.quote) rest

/-- The trailing-strip loop (ninja.cc:332-337) reads `(*cmd_buf)[size-1]`
and pops while that character is whitespace or `;`.  Reading the last
character of an empty buffer is out of bounds; `none` models that access.
The loop is run on the reversed buffer, structurally. -/
def stripRevGo : List Char → Option (List Char)
  | [] => none
  | c :: rest => if isSpaceC c || c == ';' then stripRevGo rest else some (c :: rest)

/-- The trailing-strip loop on the buffer itself. -/
def stripLoop (buf : List Char) : Option (List Char) :=
  (stripRevGo buf.reverse).map List.reverse

/-- The `make ` → `ninja ` buffer rewrite at the top of `TranslateCommand`
(ninja.cc:266-269): `cmd_buf->rfind("make ", 0) == 0` is exactly the test
that the accumulated buffer starts with `make `. -/
def makeToNinja (buf : List Char) : List Char :=
  if "make ".data.isPrefixOf buf then "ninja ".data ++ buf.drop 5 else buf

/-- The buffer after the scan and the final `prev_backslash` fix-up
(ninja.cc:328-330), starting from an already-rewritten buffer. -/
def scanBufFrom (buf0 input : List Char) : List Char :=
  let st := scanLoop (input.length + 1) ⟨buf0, false, ' ', nulChar⟩ input
  if st.prevBackslash then st.buf.dropLast else st.buf

/-- `TranslateCommand` from a given buffer: the resulting whole buffer and
the returned fragment (the `StringPiece` from `orig_size`, ninja.cc:339-340).
`none` models the out-of-bounds read of the strip loop on an empty buffer. -/
def translateFromBuf (buf0 input : List Char) : Option (List Char × List Char) :=
  (stripLoop (scanBufFrom buf0 input)).map (fun r => (r, r.drop buf0.length))

/-- `TranslateCommand` (ninja.cc:265-341). -/
def translateCommandFull (cmdBuf input : List Char) : Option (List Char × List Char) :=
  translateFromBuf (makeToNinja cmdBuf) input

/-- The buffer entering the strip loop, for stating the strip-safety claim. -/
def scannedBuf (cmdBuf input : List Char) : List Char :=
  scanBufFrom (makeToNinja cmdBuf) input

example : translateCommandFull [] ("a\\\nb".data) = some ("ab".data, "ab".data) := by decide
example : translateCommandFull [] ("a\nb".data) = some ("a b".data, "a b".data) := by decide
example : translateCommandFull [] (";".data) = none := by decide
example : translateCommandFull [] ("a $b".data) = some ("a $$b".data, "a $$b".data) := by decide
example : translateCommandFull [] ("x #c\ny".data) = some ("x y".data, "x y".data) := by decide
example : translateCommandFull ("make foo".data) [] = some ("ninja foo".data, "".data) := by decide

/-- The quote-stripping scan of `GetDescriptionFromCommand` (ninja.cc:365-402):
`pb` is `prev_backslash`, `q` the open quote (`nulChar` for none), `acc` the
accumulated unquoted text; `none` when an unquoted shell metacharacter is hit. -/
def getDescLoop : Bool → Char → List Char → List Char → Option (List Char)
  | _, _, acc, [] => some acc
  | pb, q, acc, c :: rest =>
    if pb then getDescLoop false q (acc ++ [c]) rest
    else if c == '\\' then getDescLoop true q (acc ++ [c]) rest
    else if q != nulChar then
      if c == q then getDescLoop pb nulChar acc rest else getDescLoop pb q (acc ++ [c]) rest
    else if c == '\'' || c == '"' || c == '`' then getDescLoop pb c acc rest
    else if c == '<' || c == '>' || c == '&' || c == '|' || c == ';' then none
    else getDescLoop pb q (acc ++ [c]) rest

/-- `GetDescriptionFromCommand` (ninja.cc:359-406): for a command starting
with `echo `, the unquoted text, unless an unquoted metacharacter appears. -/
def getDescriptionFromCommand (cmd : List Char) : Option (List Char) :=
  if "echo ".data.isPrefixOf cmd then getDescLoop false nulChar [] (cmd.drop 5) else none

/-- `Dirname` (strutil helper, external to the given sources).
Modelled from the spec: "the directory component of the target's output
name" - everything before the last slash, or `.` for a bare file name. -/
def dirnameOf (s : List Char) : List Char :=
  if s.contains '/' then (s.reverse.dropWhile (fun c => c != '/')).tail.reverse else ".".data

/-- `IsOutputMkdir` (ninja.cc:343-357): the command is `mkdir -p <dir>`
where `<dir>` (a trailing slash dropped) equals the output's directory. -/
def isOutputMkdir (name cmd : List Char) : Bool :=
  if "mkdir -p ".data.isPrefixOf cmd then
    let c1 := cmd.drop 9
    let c2 := if c1.getLast? == some '/' then c1.dropLast else c1
    c2 == dirnameOf name
  else false

/-- `StripPrefix` (ninja.cc:74-79) as an option-valued strip. -/
def stripPre (p s : List Char) : Option (List Char) :=
  if p.isPrefixOf s then some (s.drop p.length) else none

/-- `GetGomaccPosForAndroidCompileCommand` (ninja.cc:81-102), with fuel for
the `ccache`-skipping recursion (each step drops past the first space, so
`cmdline.length + 1` fuel always suffices). -/
def getGomaccPos : Nat → List Char → Option Nat
  | 0, _ => none
  | fuel + 1, cmdline =>
    match listFind cmdline [' '] with
    | none => none
    | some index =>
      let cmd := cmdline.take index
      if "ccache".data.isSuffixOf cmd then
        match getGomaccPos fuel (cmdline.drop (index + 1)) with
        | none => none
        | some pos => some (pos + index + 1)
      else
        match stripPre "prebuilts/".data cmd with
        | none => none
        | some c1 =>
          match stripPre "gcc/".data c1 <|> stripPre "clang/".data c1 with
          | none => none
          | some c2 =>
            if "gcc".data.isSuffixOf c2 || "g++".data.isSuffixOf c2 ||
               "clang".data.isSuffixOf c2 || "clang++".data.isSuffixOf c2 then
              if listFind (cmdline.drop index) " -c ".data != none then some 0 else none
            else none

/-- One recipe command as the emitter consumes it: its shell text and the
`echo` (no `@` marker) and `ignore_error` (`-` marker) flags. -/
structure Cmd where
  cmd : List Char
  echo : Bool
  ignoreError : Bool
deriving DecidableEq, Repr

/-- The global flags and evaluator-derived configuration the emitter reads
(`g_flags` fields and the `use_goma_` member of `NinjaGenerator`). -/
structure EFlags where
  detectAndroidEcho : Bool
  gomaDir : Option (List Char)
  remoteNumJobs : Nat
  useGoma : Bool
  defaultPool : Option (List Char)
  targets : List (List Char)
  genAllTargets : Bool
  generateEmptyNinja : Bool
deriving DecidableEq, Repr

/-- The loop state of `GenShellScript` (ninja.cc:408-464): the accumulated
command buffer, the description out-parameter, the `got_descritpion` and
`use_gomacc` flags, and the mutable `command_count`. -/
structure GsSt where
  buf : List Char
  desc : List Char
  got : Bool
  useGomacc : Bool
  count : Nat
deriving DecidableEq, Repr

/-- The description / redundant-mkdir treatment of one translated fragment
(ninja.cc:433-440): returns the (possibly cleared) fragment, description and
`got_descritpion` flag. -/
def gsProcessFrag (flags : EFlags) (name : List Char) (c : Cmd) (st : GsSt)
    (cmdBegin : Nat) (frag : List Char) : List Char × List Char × Bool :=
  let mkdirCase : List Char × List Char × Bool :=
    if isOutputMkdir name frag && !c.echo && cmdBegin == 0 then ([], st.desc, st.got)
    else (frag, st.desc, st.got)
  if flags.detectAndroidEcho && !st.got && !c.echo then
    match getDescriptionFromCommand frag with
    | some d => ([], d, true)
    | none => mkdirCase
  else mkdirCase

/-- Insertion of the gomacc wrapper text at a buffer position
(`cmd_buf->insert(cmd_start + pos, gomacc_)`, ninja.cc:448). -/
def insertAt (l : List Char) (i : Nat) (xs : List Char) : List Char :=
  l.take i ++ xs ++ l.drop i

/-- One iteration of the `GenShellScript` loop body (ninja.cc:415-461) for
command `c`; `none` models the strip loop's out-of-bounds read inside
`TranslateCommand`. -/
def gsStep (flags : EFlags) (name : List Char) (st : GsSt) (c : Cmd) : Option GsSt :=
  let cmdBegin := st.buf.length
  let buf1 := if !st.buf.isEmpty then st.buf ++ " && ".data else st.buf
  let inp := c.cmd.dropWhile isSpaceC
  let needsSubshell := st.count > 1 || c.ignoreError
  let buf2 := if needsSubshell then buf1 ++ ['('] else buf1
  let cmdStart := buf2.length
  match translateCommandFull buf2 inp with
  | none => none
  | some (buf3, translated) =>
    let (frag, desc, got) := gsProcessFrag flags name c st cmdBegin translated
    if frag.isEmpty then
      some { st with buf := buf3.take cmdBegin, desc := desc, got := got,
                     count := st.count - 1 }
    else
      let (buf4, ug) :=
        match flags.gomaDir with
        | some gdir =>
          match getGomaccPos (frag.length + 1) frag with
          | some pos => (insertAt buf3 (cmdStart + pos) (gdir ++ "/gomacc ".data), true)
          | none => (buf3, st.useGomacc)
        | none =>
          if listFind frag "/gomacc".data != none then (buf3, true) else (buf3, st.useGomacc)
      let buf5 := if c.ignoreError then buf4 ++ " ; true".data else buf4
      let buf6 := if needsSubshell then buf5 ++ " )".data else buf5
      some { st with buf := buf6, desc := desc, got := got, useGomacc := ug }

/-- The `GenShellScript` loop over all commands of a recipe. -/
def gsRun (flags : EFlags) (name : List Char) : List Cmd → GsSt → Option GsSt
  | [], st => some st
  | c :: rest, st =>
    match gsStep flags name st c with
    | none => none
    | some st2 => gsRun flags name rest st2

/-- `GenShellScript` (ninja.cc:408-464): the joined command buffer, the
description out-parameter (initially `desc0`), and the returned
`use_local_pool` bool `(use_goma_ || remote_num_jobs || goma_dir) && !use_gomacc`. -/
def genShellScript (flags : EFlags) (name : List Char) (cmds : List Cmd)
    (desc0 : List Char) : Option (List Char × List Char × Bool) :=
  match gsRun flags name cmds ⟨[], desc0, false, false, cmds.length⟩ with
  | none => none
  | some st =>
    some (st.buf, st.desc,
          (flags.useGoma || flags.remoteNumJobs != 0 || flags.gomaDir.isSome) && !st.useGomacc)

/-- A default flag record with everything off, for concrete instances. -/
def flags0 : EFlags := ⟨false, none, 0, false, none, [], false, false⟩

example : genShellScript { flags0 with detectAndroidEcho := true } ("t".data)
    [⟨"echo hi".data, false, false⟩] ("build $out".data) =
    some ([], "hi".data, false) := by decide
example : genShellScript { flags0 with detectAndroidEcho := true } ("t".data)
    [⟨"echo a > b".data, false, false⟩] ("build $out".data) =
    some ("echo a > b".data, "build $out".data, false) := by decide
example : genShellScript { flags0 with detectAndroidEcho := true } ("t".data)
    [⟨"echo hi".data, true, false⟩] ("build $out".data) =
    some ("echo hi".data, "build $out".data, false) := by decide
example : genShellScript { flags0 with useGoma := true } ("t".data)
    [⟨"foo/gomacc bar".data, true, false⟩] ("build $out".data) =
    some ("foo/gomacc bar".data, "build $out".data, false) := by decide
example : genShellScript { flags0 with useGoma := true } ("t".data)
    [⟨"cc -c x.c".data, true, false⟩] ("build $out".data) =
    some ("cc -c x.c".data, "build $out".data, true) := by decide

/-- The characters `EscapeNinja` treats specially (`find_first_of("$: ")`). -/
def ninjaSpecial (c : Char) : Bool := c == '$' || c == ':' || c == ' '

/-- The character loop of `EscapeNinja` (ninja.cc:536-546): a special
character gets a `$` put in front of it and is then copied (fallthrough). -/
def escapeNinjaCore : List Char → List Char
  | [] => []
  | c :: rest => (if ninjaSpecial c then ['$', c] else [c]) ++ escapeNinjaCore rest

/-- `EscapeNinja` (ninja.cc:532-548), with the early return for names
containing none of `$`, `:`, space. -/
def escapeNinja (s : List Char) : List Char :=
  if s.any ninjaSpecial then escapeNinjaCore s else s

/-- The spec's wording of the escaping contract: in the emitted name every
`$`, `:` or space of the original is preceded by exactly one added `$` and
every other character is copied verbatim. -/
def escapeNinjaSpec (s : List Char) : List Char :=
  (s.map (fun c => if ninjaSpecial c then ['$', c] else [c])).flatten

/-- The pool line decision of `EmitBuild` (ninja.cc:596-609): `poolEval` is
the evaluation of the node's `ninja_pool_var` (`none` when the variable is
absent, which leaves `pool` empty); the result is the emitted pool name,
`none` when no pool line is written. -/
def poolLineFor (flags : EFlags) (poolEval : Option (List Char))
    (ruleName : List Char) (useLocalPool : Bool) : Option (List Char) :=
  let pool := poolEval.getD []
  if pool != [] then
    if pool != "none".data then some pool else none
  else if flags.defaultPool.isSome && ruleName != "phony".data then flags.defaultPool
  else if useLocalPool then some "local_pool".data else none

/-- The pool line a node gets in `EmitNode` (ninja.cc:489-530): an empty
command list keeps `rule_name = "phony"` and `use_local_pool = false`;
otherwise the rule is `rule<id>` and `use_local_pool` is `GenShellScript`'s
return value.  The outer `none` models a failing translation. -/
def emitNodePool (flags : EFlags) (name : List Char) (cmds : List Cmd)
    (poolEval : Option (List Char)) (ruleId : Nat) : Option (Option (List Char)) :=
  if cmds.isEmpty then some (poolLineFor flags poolEval ("phony".data) false)
  else
    match genShellScript flags name cmds ("build $out".data) with
    | none => none
    | some (_, _, ulp) =>
      some (poolLineFor flags poolEval ("rule".data ++ Nat.toDigits 10 ruleId) ulp)

example : emitNodePool { flags0 with useGoma := true } ("t".data)
    [⟨"foo/gomacc bar".data, true, false⟩] none 0 = some none := by decide
example : emitNodePool { flags0 with useGoma := true } ("t".data)
    [⟨"cc -c x.c".data, true, false⟩] none 0 = some (some ("local_pool".data)) := by decide

/-- A resolved dependency-graph node (`DepNode`, consumed by the emitter):
its output name, whether it has a rule, whether it is phony, its evaluated
command list (the result of `ce_.Eval`, which is external to ninja.cc), its
three kinds of outgoing edges as (edge name, node) pairs, the default-target
flag and the evaluation of its `ninja_pool_var` (`none` when absent). -/
inductive DepNode where
  | node (output : List Char) (hasRule : Bool) (isPhony : Bool) (cmds : List Cmd)
      (deps orderOnlys validations : List (List Char × DepNode))
      (isDefaultTarget : Bool) (poolEval : Option (List Char)) : DepNode

def DepNode.output : DepNode → List Char
  | .node o _ _ _ _ _ _ _ _ => o

def DepNode.hasRule : DepNode → Bool
  | .node _ h _ _ _ _ _ _ _ => h

def DepNode.isPhony : DepNode → Bool
  | .node _ _ p _ _ _ _ _ _ => p

def DepNode.cmds : DepNode → List Cmd
  | .node _ _ _ c _ _ _ _ _ => c

def DepNode.deps : DepNode → List (List Char × DepNode)
  | .node _ _ _ _ d _ _ _ _ => d

def DepNode.orderOnlys : DepNode → List (List Char × DepNode)
  | .node _ _ _ _ _ o _ _ _ => o

def DepNode.validations : DepNode → List (List Char × DepNode)
  | .node _ _ _ _ _ _ v _ _ => v

def DepNode.isDefaultTarget : DepNode → Bool
  | .node _ _ _ _ _ _ _ d _ => d

def DepNode.poolEval : DepNode → Option (List Char)
  | .node _ _ _ _ _ _ _ _ p => p

/-- The traversal state of `PopulateNinjaNode` (ninja.cc:230-263): the
`done_` set of already-visited output names, the `nodes_` list of created
`NinjaNode`s (each a node together with its assigned rule id, `none`
standing for the `-1` of a command-less node), and the `rule_id_` counter. -/
structure PState where
  done : List (List Char)
  nodes : List (DepNode × Option Nat)
  ruleId : Nat

/-- The recursive graph traversal `PopulateNinjaNode` (ninja.cc:230-263) as
an explicit depth-first worklist: visiting a node pushes its dependency,
order-only and validation children (in that order) in front of the pending
list, which is the same visit order and rule-id assignment as the recursion
in the C++ code.  One fuel unit is spent per worklist step. -/
def populateGo (flags : EFlags) : Nat → PState → List DepNode → PState
  | 0, st, _ => st
  | _ + 1, st, [] => st
  | fuel + 1, st, n :: rest =>
    if st.done.contains n.output then populateGo flags fuel st rest
    else
      let st1 := { st with done := n.output :: st.done }
      if flags.detectAndroidEcho && n.output == "out".data then
        populateGo flags fuel st1 rest
      else if !n.hasRule && !n.isPhony then
        populateGo flags fuel st1 rest
      else
        let rid := if n.cmds.isEmpty then none else some st1.ruleId
        let st2 := { st1 with nodes := st1.nodes ++ [(n, rid)],
                              ruleId := if n.cmds.isEmpty then st1.ruleId else st1.ruleId + 1 }
        populateGo flags fuel st2
          (n.deps.map Prod.snd ++ n.orderOnlys.map Prod.snd ++
           n.validations.map Prod.snd ++ rest)

/-- `PopulateNinjaNodes` (ninja.cc:223-228) over the root list. -/
def populateNinjaNodes (flags : EFlags) (fuel : Nat)
    (roots : List (List Char × DepNode)) : PState :=
  populateGo flags fuel ⟨[], [], 0⟩ (roots.map Prod.snd)

/-- `IsSpecialTarget` (external to the given sources).
Modelled from the spec: the make-style special targets skipped by emission
are the dot-prefixed names such as `.PHONY`. -/
def isSpecialTarget (o : List Char) : Bool := o.head? == some '.'

/-- The `default_target_` slot after all of `GenerateNinja`'s `EmitNode`
calls (ninja.cc:650-654, 495-496, 613-616): the last emitted node flagged
default-target wins; with `generate_empty_ninja` no node is emitted. -/
def defaultSlot (flags : EFlags) (nodes : List DepNode) : Option DepNode :=
  if flags.generateEmptyNinja then none
  else
    nodes.foldl
      (fun acc n =>
        if isSpecialTarget n.output then acc
        else if n.isDefaultTarget then some n else acc)
      none

/-- Space-joining of the explicit target names (ninja.cc:669-673). -/
def joinSpace (xs : List (List Char)) : List Char := List.intercalate [' '] xs

/-- The `default_targets` computation of `GenerateNinja` (ninja.cc:664-674):
`none` models the fatal `CHECK(default_target_)` abort. -/
def defaultTargetsStr (flags : EFlags) (nodes : List DepNode) : Option (List Char) :=
  if flags.targets.isEmpty || flags.genAllTargets then
    (defaultSlot flags nodes).map (fun n => escapeNinja n.output)
  else some (joinSpace (flags.targets.map escapeNinja))

/-- A leaf node (no rule, not phony) with a phony node behind it, for the
traversal claims. -/
def phonyNodeP : DepNode := .node ("p".data) false true [] [] [] [] false none

def leafNodeL : DepNode :=
  .node ("l".data) false false [] [("p".data, phonyNodeP)] [] [] false none

example : (populateNinjaNodes flags0 10 [("l".data, leafNodeL)]).nodes.length = 0 := by decide
example : (populateNinjaNodes flags0 10 [("l".data, leafNodeL)]).done = ["l".data] := by decide
example : defaultTargetsStr { flags0 with targets := ["foo".data], genAllTargets := true }
    [.node ("bar".data) true false [] [] [] [] true none] = some ("bar".data) := by decide

/-- One serialized field of the stamp file: the leading `start_time` double,
a `DumpInt` integer, or a `DumpString` length-prefixed string. -/
inductive StField where
  | fTime : Nat → StField
  | fInt : Nat → StField
  | fStr : List Char → StField
deriving DecidableEq, Repr

/-- The extra data a `FIND`-kind command result carries into the stamp
(ninja.cc:780-801); directory existence and path concatenation happen in the
external find subsystem, so the already-resolved lists are taken as given. -/
structure FindRec where
  missingDirs : List (List Char)
  foundFiles : List (List Char)
  readDirs : List (List Char)
deriving DecidableEq, Repr

/-- One recorded subprocess invocation (`CommandResult`); `find` is present
exactly for `CommandOp::FIND` results. -/
structure CmdRes where
  op : Nat
  shell : List Char
  shellflag : List Char
  cmd : List Char
  result : List Char
  locFile : List Char
  locLine : Nat
  find : Option FindRec
deriving DecidableEq, Repr

/-- Everything `GenerateStamp` serializes, in the order it reads it. -/
structure StampData where
  startTime : Nat
  katiBinary : List Char
  makefiles : List (List Char)
  undefinedVars : List (List Char)
  usedEnvs : List (List Char × List Char)
  globs : List (List Char × List (List Char))
  cmdResults : List CmdRes
  origArgs : List Char
deriving DecidableEq, Repr

/-- The dump of one command result (ninja.cc:771-801). -/
def serializeCmdRes (cr : CmdRes) : List StField :=
  [.fInt cr.op, .fStr cr.shell, .fStr cr.shellflag, .fStr cr.cmd, .fStr cr.result,
   .fStr cr.locFile, .fInt cr.locLine] ++
  (match cr.find with
   | none => []
   | some fr =>
     .fInt fr.missingDirs.length :: fr.missingDirs.map .fStr ++
     .fInt fr.foundFiles.length :: fr.foundFiles.map .fStr ++
     .fInt fr.readDirs.length :: fr.readDirs.map .fStr)

/-- The full field sequence `GenerateStamp` writes (ninja.cc:729-804):
start time; makefile count plus one, the kati binary path, the makefiles;
the used undefined variables; the observed environment pairs; the glob
queries with their results; the command results; the original arguments. -/
def serializeStamp (d : StampData) : List StField :=
  .fTime d.startTime ::
  .fInt (d.makefiles.length + 1) :: .fStr d.katiBinary :: d.makefiles.map .fStr ++
  .fInt d.undefinedVars.length :: d.undefinedVars.map .fStr ++
  .fInt d.usedEnvs.length ::
    (d.usedEnvs.map (fun p => [StField.fStr p.1, StField.fStr p.2])).flatten ++
  .fInt d.globs.length ::
    (d.globs.map (fun p => StField.fStr p.1 :: StField.fInt p.2.length :: p.2.map .fStr)).flatten ++
  .fInt d.cmdResults.length :: (d.cmdResults.map serializeCmdRes).flatten ++
  [.fStr d.origArgs]

/-- The file-system operations `Generate` performs, abstracted to the level
the atomicity claim is about. -/
inductive FsOp where
  | unlink : List Char → FsOp
  | openw : List Char → FsOp
  | write : List Char → StField → FsOp
  | close : List Char → FsOp
  | rename : List Char → List Char → FsOp
deriving DecidableEq, Repr

/-- The observable content of one file: the fields written so far and
whether the file has been closed (a complete file is closed). -/
structure FileVal where
  chunks : List StField
  closed : Bool
deriving DecidableEq, Repr

/-- The file system: each path is absent or holds a `FileVal`. -/
def FsState := List Char → Option FileVal

/-- Effect of one operation on the file system. -/
def applyOp (s : FsState) : FsOp → FsState
  | .unlink p => fun q => if q = p then none else s q
  | .openw p => fun q => if q = p then some ⟨[], false⟩ else s q
  | .write p f => fun q =>
      if q = p then
        match s p with
        | some v => some ⟨v.chunks ++ [f], v.closed⟩
        | none => none
      else s q
  | .close p => fun q =>
      if q = p then
        match s p with
        | some v => some ⟨v.chunks, true⟩
        | none => none
      else s q
  | .rename src dst => fun q =>
      if q = dst then s src else if q = src then none else s q

/-- Running a list of operations in order. -/
def runOps (s : FsState) (ops : List FsOp) : FsState := ops.foldl applyOp s

/-- `GetFilename(".kati_stamp%s")` (ninja.cc:836-838, 215-220). -/
def stampName (dir sfx : List Char) : List Char := dir ++ ("/.kati_stamp".data ++ sfx)

/-- `GetStampTempFilename()` = `GetFilename(".kati_stamp%s.tmp")` (ninja.cc:211-213). -/
def stampTmpName (dir sfx : List Char) : List Char :=
  dir ++ ("/.kati_stamp".data ++ (sfx ++ ".tmp".data))

/-- `GetNinjaFilename()` = `GetFilename("build%s.ninja")` (ninja.cc:828-830). -/
def ninjaFileName (dir sfx : List Char) : List Char :=
  dir ++ ("/build".data ++ (sfx ++ ".ninja".data))

/-- `GetEnvScriptFilename()` = `GetFilename("env%s.sh")` (ninja.cc:619). -/
def envFileName (dir sfx : List Char) : List Char :=
  dir ++ ("/env".data ++ (sfx ++ ".sh".data))

/-- `GetNinjaShellScriptFilename()` = `GetFilename("ninja%s.sh")` (ninja.cc:832-834). -/
def shFileName (dir sfx : List Char) : List Char :=
  dir ++ ("/ninja".data ++ (sfx ++ ".sh".data))

/-- Opening, filling and closing one output file. -/
def fileWriteOps (p : List Char) (chunks : List StField) : List FsOp :=
  .openw p :: chunks.map (.write p) ++ [.close p]

/-- The operation trace of `Generate` (ninja.cc:203-209) as far as files are
concerned: unlink the stamp (204), write the ninja file, the env script and
the wrapper script, then `GenerateStamp` (725-809): write every serialized
field to the temp stamp, close it, and rename it over the stamp path. -/
def generateTrace (dir sfx : List Char) (d : StampData)
    (ninjaOut envOut shOut : List StField) : List FsOp :=
  .unlink (stampName dir sfx) ::
  fileWriteOps (ninjaFileName dir sfx) ninjaOut ++
  fileWriteOps (envFileName dir sfx) envOut ++
  fileWriteOps (shFileName dir sfx) shOut ++
  fileWriteOps (stampTmpName dir sfx) (serializeStamp d) ++
  [.rename (stampTmpName dir sfx) (stampName dir sfx)]

/-- Whether an operation touches the path `q`. -/
def touches (q : List Char) : FsOp → Bool
  | .unlink p => p == q
  | .openw p => p == q
  | .write p _ => p == q
  | .close p => p == q
  | .rename a b => a == q || b == q

/-- A trivial stamp payload and a distinct previous one, for instances. -/
def stampD0 : StampData := ⟨0, "kati".data, [], [], [], [], [], "args".data⟩

def stampDPrev : StampData := ⟨1, "kati".data, [], [], [], [], [], "old".data⟩

/-- The file system before a run: the canonical stamp holds the complete
previous stamp and nothing else exists. -/
def fsPrev (dir sfx : List Char) : FsState :=
  fun q => if q = stampName dir sfx then some ⟨serializeStamp stampDPrev, true⟩ else none

example : runOps (fsPrev (".".data) []) ((generateTrace (".".data) [] stampD0 [] [] []).take 1)
    (stampName (".".data) []) = none := by decide
example : runOps (fsPrev (".".data) []) (generateTrace (".".data) [] stampD0 [] [] [])
    (stampName (".".data) []) = some ⟨serializeStamp stampD0, true⟩ := by decide

/-! ## Helper lemmas -/

theorem escapeNinjaCore_eq_spec (s : List Char) : escapeNinjaCore s = escapeNinjaSpec s := by
  induction s with
  | nil => rfl
  | cons c rest ih => simp [escapeNinjaCore, escapeNinjaSpec] at ih ⊢; rw [ih]

theorem escapeNinjaSpec_of_plain (s : List Char) (h : s.any ninjaSpecial = false) :
    escapeNinjaSpec s = s := by
  induction s with
  | nil => rfl
  | cons c rest ih =>
    simp [List.any_cons] at h
    simp [escapeNinjaSpec] at ih ⊢
    simp [h.1, ih h.2]

/-! ## Claim theorems -/

/-- C9: every name written into the build plan through `EscapeNinja` has each
`$`, `:` and space preceded by exactly one added `$` (the per-character
image is `$c` for special characters and `c` otherwise), and a name with
none of those characters is emitted verbatim. -/
theorem escapeNinja_escapes (s : List Char) :
    escapeNinja s = escapeNinjaSpec s ∧
    (s.any ninjaSpecial = false → escapeNinja s = s) := by
  constructor
  · by_cases h : s.any ninjaSpecial = true
    · simp [escapeNinja, h, escapeNinjaCore_eq_spec]
    · have h' : s.any ninjaSpecial = false := by revert h; cases s.any ninjaSpecial <;> simp
      simp [escapeNinja, h', escapeNinjaSpec_of_plain s h']
  · intro h; simp [escapeNinja, h]

theorem escapeNinja_escapes_witness : escapeNinja ("ab".data) = "ab".data :=
  (escapeNinja_escapes ("ab".data)).2 (by decide)

/-- C10: at the start of `TranslateCommand`, a buffer beginning with the five
characters `make ` is replaced by `ninja ` followed by the rest of the buffer
before the input is scanned, and a buffer not beginning with `make ` is left
unchanged by this step. -/
theorem translateCommand_make_rewrite (buf input : List Char) :
    ("make ".data.isPrefixOf buf = true →
      translateCommandFull buf input = translateFromBuf ("ninja ".data ++ buf.drop 5) input) ∧
    ("make ".data.isPrefixOf buf = false →
      translateCommandFull buf input = translateFromBuf buf input) := by
  constructor <;> intro h <;> simp [translateCommandFull, makeToNinja, h]

theorem translateCommand_make_rewrite_witness :
    translateCommandFull ("make x".data) [] =
      translateFromBuf ("ninja ".data ++ "make x".data.drop 5) [] :=
  (translateCommand_make_rewrite ("make x".data) []).1 (by decide)

/-- C3 counterexample: translating backslash-newline between `a` and `b`
joins the lines with no separator, producing `ab`, not the claimed `a b`. -/
theorem translate_backslash_newline_counterexample :
    translateCommandFull [] ("a\\\nb".data) = some ("ab".data, "ab".data) ∧
    ("ab".data : List Char) ≠ "a b".data := by decide

/-- C3 (amended): a newline whose `prev_backslash` flag is set drops the
buffered backslash and emits nothing for the newline (joining the lines with
no separator), a bare newline becomes a single space; so backslash-newline
between `a` and `b` yields `ab` and a bare newline there yields `a b`. -/
theorem translate_newline_amended :
    (∀ (fuel : Nat) (buf : List Char) (pc q : Char) (rest : List Char),
      scanLoop (fuel + 1) ⟨buf, true, pc, q⟩ ('\n' :: rest) =
        scanLoop fuel ⟨buf.dropLast, false, '\n', q⟩ rest) ∧
    (∀ (fuel : Nat) (buf : List Char) (pc q : Char) (rest : List Char),
      scanLoop (fuel + 1) ⟨buf, false, pc, q⟩ ('\n' :: rest) =
        scanLoop fuel ⟨buf ++ [' '], false, '\n', q⟩ rest) ∧
    translateCommandFull [] ("a\\\nb".data) = some ("ab".data, "ab".data) ∧
    translateCommandFull [] ("a\nb".data) = some ("a b".data, "a b".data) := by
  refine ⟨fun fuel buf pc q rest => rfl, fun fuel buf pc q rest => rfl, by decide, by decide⟩

/-- C1 counterexample: the phony node `p` is reachable only through the leaf
node `l` (no rule, not phony); the traversal marks `l` visited but never
reaches `p`, and no node at all is emitted. -/
theorem populate_leaf_counterexample :
    (populateNinjaNodes flags0 10 [("l".data, leafNodeL)]).nodes.length = 0 ∧
    (populateNinjaNodes flags0 10 [("l".data, leafNodeL)]).done = ["l".data] ∧
    phonyNodeP.isPhony = true ∧ leafNodeL.deps.length = 1 := by decide

/-- C1 (amended): a node with no recipe and not phony that is reached during
traversal is marked visited and emits no rule, and its dependency, order-only
and validation edges are NOT traversed: the traversal continues with the
remaining worklist and the only state change is the visited mark. -/
theorem populateGo_leaf (flags : EFlags) (fuel : Nat) (st : PState) (n : DepNode)
    (rest : List DepNode) (h1 : n.hasRule = false) (h2 : n.isPhony = false) :
    populateGo flags (fuel + 1) st (n :: rest) =
      if st.done.contains n.output then populateGo flags fuel st rest
      else populateGo flags fuel { st with done := n.output :: st.done } rest := by
  by_cases hd : n.output ∈ st.done
  · simp [populateGo, hd]
  · by_cases ha : flags.detectAndroidEcho = true ∧ n.output = "out".data
    · simp [populateGo, hd, ha]
    · simp [populateGo, hd, ha, h1, h2]

theorem populateGo_leaf_witness :
    populateGo flags0 4 ⟨[], [], 0⟩ [leafNodeL] =
      if ([] : List (List Char)).contains leafNodeL.output then populateGo flags0 3 ⟨[], [], 0⟩ []
      else populateGo flags0 3 ⟨[leafNodeL.output], [], 0⟩ [] :=
  populateGo_leaf flags0 3 ⟨[], [], 0⟩ leafNodeL [] rfl rfl

theorem stripRevGo_of_any (m : List Char)
    (h : ∃ c ∈ m, (isSpaceC c || c == ';') = false) :
    ∃ c r, stripRevGo m = some (c :: r) ∧ (isSpaceC c || c == ';') = false := by
  induction m with
  | nil => simp at h
  | cons a t ih =>
    by_cases ha : (isSpaceC a || a == ';') = true
    · have ht : ∃ c ∈ t, (isSpaceC c || c == ';') = false := by
        obtain ⟨c, hc, hg⟩ := h
        rcases List.mem_cons.mp hc with rfl | hmem
        · rw [ha] at hg; cases hg
        · exact ⟨c, hmem, hg⟩
      obtain ⟨c, r, h1, h2⟩ := ih ht
      exact ⟨c, r, by simp [stripRevGo, ha, h1], h2⟩
    · have ha' : (isSpaceC a || a == ';') = false := by
        revert ha; cases isSpaceC a || a == ';' <;> simp
      exact ⟨a, t, by simp [stripRevGo, ha'], ha'⟩

/-- C5 counterexample: for the input `;` (and for the empty input) the whole
scanned buffer is stripped and the strip loop then reads the last character
of an empty buffer — an out-of-bounds access, modelled as `none` — refuting
"for every input string ... stays within the bounds of its output buffer". -/
theorem translate_strip_counterexample :
    translateCommandFull [] (";".data) = none ∧ translateCommandFull [] [] = none := by
  decide

/-- C5 (amended): the scan phase is total for every input (unbalanced quotes
only leave the quote state open), and whenever the scanned buffer contains at
least one character that is neither whitespace nor `;`, the strip loop stays
in bounds and the result ends in neither whitespace nor `;`. -/
theorem translate_strip_amended (cmdBuf input : List Char)
    (h : ∃ c ∈ scannedBuf cmdBuf input, (isSpaceC c || c == ';') = false) :
    ∃ r c, translateCommandFull cmdBuf input =
        some (r, r.drop (makeToNinja cmdBuf).length) ∧
      r.getLast? = some c ∧ isSpaceC c = false ∧ c ≠ ';' := by
  have h' : ∃ c ∈ (scannedBuf cmdBuf input).reverse, (isSpaceC c || c == ';') = false := by
    obtain ⟨c, hc, hg⟩ := h
    exact ⟨c, List.mem_reverse.mpr hc, hg⟩
  obtain ⟨c, r, h1, h2⟩ := stripRevGo_of_any _ h'
  have hgood : isSpaceC c = false ∧ (c == ';') = false := by
    revert h2; cases hs : isSpaceC c <;> cases he : c == ';' <;> simp
  refine ⟨(c :: r).reverse, c, ?_, ?_, hgood.1, ?_⟩
  · simp [translateCommandFull, translateFromBuf, stripLoop, scannedBuf] at h1 ⊢
    rw [h1]
    exact ⟨c :: r, rfl, rfl, by simp⟩
  · rw [List.getLast?_reverse]; rfl
  · intro hc; rw [hc] at hgood; simp at hgood

theorem translate_strip_amended_witness :
    ∃ r c, translateCommandFull [] ("ls ;".data) =
        some (r, r.drop (makeToNinja []).length) ∧
      r.getLast? = some c ∧ isSpaceC c = false ∧ c ≠ ';' :=
  translate_strip_amended [] ("ls ;".data) (by decide)

/-- C6 counterexample: `echo hi` is exactly an echo command with balanced
quoting and no shell metacharacters (the extractor itself accepts it), yet
as the first fragment of a recipe whose command echoing is not suppressed
(no `@` marker) the emitter keeps the fragment and extracts no description,
so the claim's conditional is false. -/
theorem genShellScript_echo_counterexample :
    genShellScript { flags0 with detectAndroidEcho := true } ("t".data)
        [⟨"echo hi".data, true, false⟩] ("build $out".data) =
      some ("echo hi".data, "build $out".data, false) ∧
    getDescriptionFromCommand ("echo hi".data) = some ("hi".data) := by decide

/-- C6 (amended): when the android-echo heuristic is enabled and the first
recipe command has its echoing suppressed (`@`) and no ignore-error marker,
a fragment the description extractor accepts becomes the rule's description
and the fragment is dropped from the command body; in particular `echo hi`
yields description `hi` with an empty body while `echo a > b` (an unquoted
redirection) is kept verbatim with the default description. -/
theorem genShellScript_description (flags : EFlags) (name text d desc0 : List Char)
    (tr : List Char × List Char)
    (hflag : flags.detectAndroidEcho = true)
    (htr : translateCommandFull [] (text.dropWhile isSpaceC) = some tr)
    (hdesc : getDescriptionFromCommand tr.2 = some d) :
    (∃ u, genShellScript flags name [⟨text, false, false⟩] desc0 = some ([], d, u)) ∧
    genShellScript { flags0 with detectAndroidEcho := true } ("t".data)
        [⟨"echo hi".data, false, false⟩] ("build $out".data) =
      some ([], "hi".data, false) ∧
    genShellScript { flags0 with detectAndroidEcho := true } ("t".data)
        [⟨"echo a > b".data, false, false⟩] ("build $out".data) =
      some ("echo a > b".data, "build $out".data, false) := by
  refine ⟨?_, by decide, by decide⟩
  obtain ⟨t1, t2⟩ := tr
  refine ⟨(flags.useGoma || flags.remoteNumJobs != 0 || flags.gomaDir.isSome), ?_⟩
  simp [genShellScript, gsRun, gsStep, htr, gsProcessFrag, hflag, hdesc]

/-- A non-special default-flagged node for the default-target claims. -/
def defNodeBar : DepNode := .node ("bar".data) true false [] [] [] [] true none

/-- C7 counterexample: with an explicit target list `[foo]` but
`gen_all_targets` set, the flagged default `bar` becomes the default goal,
refuting "if explicit targets are named they become the default goals". -/
theorem defaultTargets_counterexample :
    defaultTargetsStr { flags0 with targets := ["foo".data], genAllTargets := true }
        [defNodeBar] = some ("bar".data) ∧
    ("bar".data : List Char) ≠ "foo".data := by decide

/-- C7 (amended): when the run names no explicit targets — or requests
generating all targets, which overrides an explicit list — the last emitted
node flagged default-target becomes the plan's default goal, and if no such
node exists the `CHECK(default_target_)` aborts (modelled `none`); an
explicit target list becomes the default goals only when the
generate-all-targets mode is off. -/
theorem defaultTargets_amended :
    (∀ (flags : EFlags) (nodes : List DepNode) (n : DepNode),
      flags.targets = [] → defaultSlot flags nodes = some n →
      defaultTargetsStr flags nodes = some (escapeNinja n.output)) ∧
    (∀ (flags : EFlags) (nodes : List DepNode),
      (flags.targets = [] ∨ flags.genAllTargets = true) → defaultSlot flags nodes = none →
      defaultTargetsStr flags nodes = none) ∧
    (∀ (flags : EFlags) (nodes : List DepNode),
      flags.targets ≠ [] → flags.genAllTargets = false →
      defaultTargetsStr flags nodes = some (joinSpace (flags.targets.map escapeNinja))) := by
  refine ⟨?_, ?_, ?_⟩
  · intro flags nodes n h1 h2
    simp [defaultTargetsStr, h1, h2]
  · intro flags nodes h1 h2
    rcases h1 with h1 | h1 <;> simp [defaultTargetsStr, h1, h2]
  · intro flags nodes h1 h2
    cases hT : flags.targets with
    | nil => exact absurd hT h1
    | cons a l => simp [defaultTargetsStr, hT, h2]

theorem defaultTargets_amended_witness :
    defaultTargetsStr flags0 [defNodeBar] = some (escapeNinja defNodeBar.output) :=
  defaultTargets_amended.1 flags0 [defNodeBar] defNodeBar rfl rfl

/-- C8 counterexample: with remote execution globally enabled (`use_goma_`)
and a recipe command that used the gomacc wrapper, no pool line is emitted
(the code applies `local_pool` only to commands that did NOT use the
wrapper), refuting precedence step (3) as claimed. -/
theorem emitBuild_pool_counterexample :
    emitNodePool { flags0 with useGoma := true } ("t".data)
        [⟨"foo/gomacc bar".data, true, false⟩] none 0 = some none ∧
    listFind ("foo/gomacc bar".data) ("/gomacc".data) ≠ none ∧
    ({ flags0 with useGoma := true } : EFlags).useGoma = true := by decide

/-- C8 (amended): the pool line is chosen by first match: (1) a non-empty
evaluation of the node's pool variable, the literal `none` meaning no pool
line; (2) the configured default pool for every non-phony rule; (3) the
shared local pool when remote execution is globally enabled AND the recipe's
command did not use a detected remote-execution wrapper; otherwise no line.
The last two conjuncts exercise (3) through `GenShellScript`: under
`use_goma_`, a non-wrapper command gets `local_pool` and a wrapper command
gets no pool line. -/
theorem emitBuild_pool_amended :
    (∀ (flags : EFlags) (p rn : List Char) (ul : Bool),
      p ≠ [] → p ≠ "none".data → poolLineFor flags (some p) rn ul = some p) ∧
    (∀ (flags : EFlags) (rn : List Char) (ul : Bool),
      poolLineFor flags (some ("none".data)) rn ul = none) ∧
    (∀ (flags : EFlags) (dp rn : List Char) (ul : Bool),
      flags.defaultPool = some dp → rn ≠ "phony".data →
      poolLineFor flags none rn ul = some dp) ∧
    (∀ (flags : EFlags) (rn : List Char),
      flags.defaultPool = none → poolLineFor flags none rn true = some ("local_pool".data)) ∧
    (∀ (flags : EFlags) (rn : List Char),
      flags.defaultPool = none → poolLineFor flags none rn false = none) ∧
    emitNodePool { flags0 with useGoma := true } ("t".data)
        [⟨"cc -c x.c".data, true, false⟩] none 0 = some (some ("local_pool".data)) ∧
    emitNodePool { flags0 with useGoma := true } ("t".data)
        [⟨"foo/gomacc bar".data, true, false⟩] none 0 = some none := by
  refine ⟨?_, ?_, ?_, ?_, ?_, by decide, by decide⟩
  · intro flags p rn ul h1 h2
    simp [poolLineFor, h1, h2]
  · intro flags rn ul
    simp [poolLineFor]
  · intro flags dp rn ul h1 h2
    simp [poolLineFor, h1, h2]
  · intro flags rn h1
    simp [poolLineFor, h1]
  · intro flags rn h1
    simp [poolLineFor, h1]

theorem emitBuild_pool_amended_witness :
    poolLineFor flags0 (some ("mypool".data)) ("rule0".data) false = some ("mypool".data) :=
  emitBuild_pool_amended.1 flags0 ("mypool".data) ("rule0".data) false (by decide) (by decide)

theorem listFind_cons_not_pre (c : Char) (l pat : List Char)
    (h : pat.isPrefixOf (c :: l) = false) :
    listFind (c :: l) pat = (listFind l pat).map (· + 1) := by
  rw [listFind]; simp [h]

theorem isPrefixOf_space_cons_false (t l : List Char) (c : Char) (h : c ≠ ' ') :
    (' ' :: t).isPrefixOf (c :: l) = false := by
  simp [List.isPrefixOf]
  intro hc
  exact absurd hc.symm h

/-- A pattern starting with a space occurs in `w ++ s` exactly where it
occurs in `s`, shifted, when `w` contains no space. -/
theorem listFind_append_shift (w s t : List Char) (hw : ∀ c ∈ w, c ≠ ' ') :
    listFind (w ++ s) (' ' :: t) = (listFind s (' ' :: t)).map (· + w.length) := by
  induction w with
  | nil => cases h : listFind s (' ' :: t) <;> simp [h]
  | cons c rest ih =>
    have hc : c ≠ ' ' := hw c (by simp)
    have hrest : ∀ x ∈ rest, x ≠ ' ' := fun x hx => hw x (by simp [hx])
    rw [List.cons_append,
        listFind_cons_not_pre c (rest ++ s) (' ' :: t) (isPrefixOf_space_cons_false t _ c hc),
        ih hrest]
    cases h : listFind s (' ' :: t) <;> simp [h]
    omega

theorem findCommandLineFlag_shift (w s t : List Char) (hw0 : w ≠ [])
    (hw : ∀ c ∈ w, c ≠ ' ') (k : Nat) (hk : listFind s (' ' :: t) = some k) :
    findCommandLineFlag (w ++ s) (' ' :: t) = some (k + w.length) := by
  have hlen : w.length ≠ 0 := by
    cases w with
    | nil => exact absurd rfl hw0
    | cons a l => simp
  rw [findCommandLineFlag, listFind_append_shift w s t hw, hk]
  simp
  cases hkk : k + w.length with
  | zero => omega
  | succ m => rfl

theorem findCommandLineFlag_shift_none (w s t : List Char)
    (hw : ∀ c ∈ w, c ≠ ' ') (hk : listFind s (' ' :: t) = none) :
    findCommandLineFlag (w ++ s) (' ' :: t) = none := by
  rw [findCommandLineFlag, listFind_append_shift w s t hw, hk]
  rfl

/-- C2 counterexample: the command text `-c -MD -o out.o` contains
`-c -MD -o out.o` (it is that text), yet detection yields no depfile at all,
because the flags sit at position 0 where `FindCommandLineFlag` rejects
them; so the claim's "for every command text that contains" is false. -/
theorem getDepfile_contains_counterexample :
    listFind ("-c -MD -o out.o".data) ("-c -MD -o out.o".data) = some 0 ∧
    getDepfileFromCommandImpl ("-c -MD -o out.o".data) = none := by decide

/-- Unfolding of `FindCommandLineFlagWithArg` when the flag is absent. -/
theorem findCommandLineFlagWithArg_none (cmd name : List Char)
    (h : findCommandLineFlag cmd name = none) :
    findCommandLineFlagWithArg cmd name = [] := by
  rw [findCommandLineFlagWithArg, h]

/-- Unfolding of `FindCommandLineFlagWithArg` at a found flag position. -/
theorem findCommandLineFlagWithArg_eq (cmd name : List Char) (idx : Nat)
    (h : findCommandLineFlag cmd name = some idx) :
    findCommandLineFlagWithArg cmd name =
      takeArgToken (flagArgLoop ((trimLeftSpace (cmd.drop (idx + name.length))).length + 1)
        name (trimLeftSpace (cmd.drop (idx + name.length)))) := by
  rw [findCommandLineFlagWithArg, h]

/-- C2 (amended): for every command text of the form
`<word> -c -MD -o out.o`, where `<word>` is nonempty and contains no space,
core depfile detection (before the Android `.tmp` copy augmentation of
`GetDepfileFromCommand`) reports `out.d`; for
`<word> -c -MD -MF dep.d -o out.o` it reports `dep.d` instead. -/
theorem getDepfile_detection_amended (w : List Char) (h0 : w ≠ [])
    (hw : ∀ c ∈ w, c ≠ ' ') :
    getDepfileFromCommandImpl (w ++ " -c -MD -o out.o".data) = some ("out.d".data) ∧
    getDepfileFromCommandImpl (w ++ " -c -MD -MF dep.d -o out.o".data) =
      some ("dep.d".data) := by
  constructor
  · have hMD : findCommandLineFlag (w ++ " -c -MD -o out.o".data) (" -MD".data) =
        some (3 + w.length) :=
      findCommandLineFlag_shift w _ ("-MD".data) h0 hw 3 (by decide)
    have hC : findCommandLineFlag (w ++ " -c -MD -o out.o".data) (" -c".data) =
        some (0 + w.length) :=
      findCommandLineFlag_shift w _ ("-c".data) h0 hw 0 (by decide)
    have hMF : findCommandLineFlag (w ++ " -c -MD -o out.o".data) (" -MF".data) = none :=
      findCommandLineFlag_shift_none w _ ("-MF".data) hw (by decide)
    have hO : findCommandLineFlag (w ++ " -c -MD -o out.o".data) (" -o".data) =
        some (7 + w.length) :=
      findCommandLineFlag_shift w _ ("-o".data) h0 hw 7 (by decide)
    have hMFarg := findCommandLineFlagWithArg_none _ _ hMF
    have hOarg : findCommandLineFlagWithArg (w ++ " -c -MD -o out.o".data) (" -o".data) =
        "out.o".data := by
      rw [findCommandLineFlagWithArg_eq _ _ _ hO]
      have harith : 7 + w.length + (" -o".data : List Char).length = w.length + 10 := by
        have hl : (" -o".data : List Char).length = 3 := by decide
        rw [hl]; omega
      rw [harith, List.drop_append]
      decide
    simp [getDepfileFromCommandImpl, hMD, hC, hMFarg, hOarg]
    try decide
  · have hMD : findCommandLineFlag (w ++ " -c -MD -MF dep.d -o out.o".data) (" -MD".data) =
        some (3 + w.length) :=
      findCommandLineFlag_shift w _ ("-MD".data) h0 hw 3 (by decide)
    have hC : findCommandLineFlag (w ++ " -c -MD -MF dep.d -o out.o".data) (" -c".data) =
        some (0 + w.length) :=
      findCommandLineFlag_shift w _ ("-c".data) h0 hw 0 (by decide)
    have hMF : findCommandLineFlag (w ++ " -c -MD -MF dep.d -o out.o".data) (" -MF".data) =
        some (7 + w.length) :=
      findCommandLineFlag_shift w _ ("-MF".data) h0 hw 7 (by decide)
    have hMFarg : findCommandLineFlagWithArg (w ++ " -c -MD -MF dep.d -o out.o".data)
        (" -MF".data) = "dep.d".data := by
      rw [findCommandLineFlagWithArg_eq _ _ _ hMF]
      have harith : 7 + w.length + (" -MF".data : List Char).length = w.length + 11 := by
        have hl : (" -MF".data : List Char).length = 4 := by decide
        rw [hl]; omega
      rw [harith, List.drop_append]
      decide
    simp [getDepfileFromCommandImpl, hMD, hC, hMFarg]
    try decide

theorem getDepfile_detection_amended_witness :
    getDepfileFromCommandImpl ("cc".data ++ " -c -MD -o out.o".data) = some ("out.d".data) :=
  (getDepfile_detection_amended ("cc".data) (by decide) (by decide)).1

theorem applyOp_untouched (s : FsState) (op : FsOp) (q : List Char)
    (h : touches q op = false) : applyOp s op q = s q := by
  cases op with
  | unlink p => simp [touches] at h; simp [applyOp, Ne.symm h]
  | openw p => simp [touches] at h; simp [applyOp, Ne.symm h]
  | write p f => simp [touches] at h; simp [applyOp, Ne.symm h]
  | close p => simp [touches] at h; simp [applyOp, Ne.symm h]
  | rename a b =>
    simp [touches] at h
    simp [applyOp, Ne.symm h.1, Ne.symm h.2]

theorem runOps_untouched (ops : List FsOp) : ∀ (s : FsState) (q : List Char),
    (∀ op ∈ ops, touches q op = false) → runOps s ops q = s q := by
  induction ops with
  | nil => intro s q _; rfl
  | cons op rest ih =>
    intro s q h
    calc runOps s (op :: rest) q
        = runOps (applyOp s op) rest q := rfl
      _ = (applyOp s op) q := ih _ _ (fun o ho => h o (by simp [ho]))
      _ = s q := applyOp_untouched s op q (h op (by simp))

theorem touches_fileWriteOps (p q : List Char) (chunks : List StField) (hne : p ≠ q) :
    ∀ op ∈ fileWriteOps p chunks, touches q op = false := by
  intro op hop
  simp [fileWriteOps] at hop
  rcases hop with rfl | ⟨f, _, rfl⟩ | rfl <;> simp [touches, hne]

theorem runOps_writes (p : List Char) (chunks : List StField) :
    ∀ (acc : List StField) (s : FsState), s p = some ⟨acc, false⟩ →
      runOps s (chunks.map (.write p)) p = some ⟨acc ++ chunks, false⟩ := by
  induction chunks with
  | nil => intro acc s h; simpa [runOps] using h
  | cons f rest ih =>
    intro acc s h
    have hstep : (applyOp s (.write p f)) p = some ⟨acc ++ [f], false⟩ := by
      simp [applyOp, h]
    calc runOps s ((f :: rest).map (.write p)) p
        = runOps (applyOp s (.write p f)) (rest.map (.write p)) p := rfl
      _ = some ⟨acc ++ [f] ++ rest, false⟩ := ih (acc ++ [f]) _ hstep
      _ = some ⟨acc ++ f :: rest, false⟩ := by simp

theorem runOps_fileWriteOps_self (s : FsState) (p : List Char) (chunks : List StField) :
    runOps s (fileWriteOps p chunks) p = some ⟨chunks, true⟩ := by
  have h0 : (applyOp s (.openw p)) p = some ⟨[], false⟩ := by simp [applyOp]
  have h1 : runOps (applyOp s (.openw p)) (chunks.map (.write p)) p =
      some ⟨chunks, false⟩ := by simpa using runOps_writes p chunks [] _ h0
  calc runOps s (fileWriteOps p chunks) p
      = runOps (applyOp s (FsOp.openw p)) (chunks.map (FsOp.write p) ++ [FsOp.close p]) p := rfl
    _ = (applyOp (runOps (applyOp s (FsOp.openw p)) (chunks.map (FsOp.write p)))
          (FsOp.close p)) p := by
        rw [runOps, List.foldl_append]; rfl
    _ = some ⟨chunks, true⟩ := by
        rw [show (applyOp (runOps (applyOp s (FsOp.openw p)) (chunks.map (FsOp.write p)))
              (FsOp.close p)) p =
            match runOps (applyOp s (FsOp.openw p)) (chunks.map (FsOp.write p)) p with
            | some v => some ⟨v.chunks, true⟩
            | none => none from by simp [applyOp], h1]

theorem ne_of_take_two (dir x y A B : List Char) (h2a : 2 ≤ A.length) (h2b : 2 ≤ B.length)
    (hAB : A.take 2 ≠ B.take 2) : dir ++ (A ++ x) ≠ dir ++ (B ++ y) := by
  intro h
  have h1 : A ++ x = B ++ y := List.append_cancel_left h
  have h2 : (A ++ x).take 2 = (B ++ y).take 2 := by rw [h1]
  rw [List.take_append_of_le_length h2a, List.take_append_of_le_length h2b] at h2
  exact hAB h2

theorem stampName_ne_tmp (dir sfx : List Char) : stampName dir sfx ≠ stampTmpName dir sfx := by
  intro h
  have hlen := congrArg List.length h
  simp [stampName, stampTmpName] at hlen

theorem ninja_ne_stampName (dir sfx : List Char) : ninjaFileName dir sfx ≠ stampName dir sfx :=
  ne_of_take_two dir _ _ ("/build".data) ("/.kati_stamp".data) (by decide) (by decide) (by decide)

theorem env_ne_stampName (dir sfx : List Char) : envFileName dir sfx ≠ stampName dir sfx :=
  ne_of_take_two dir _ _ ("/env".data) ("/.kati_stamp".data) (by decide) (by decide) (by decide)

theorem sh_ne_stampName (dir sfx : List Char) : shFileName dir sfx ≠ stampName dir sfx :=
  ne_of_take_two dir _ _ ("/ninja".data) ("/.kati_stamp".data) (by decide) (by decide) (by decide)

theorem ninja_ne_stampTmp (dir sfx : List Char) : ninjaFileName dir sfx ≠ stampTmpName dir sfx :=
  ne_of_take_two dir _ _ ("/build".data) ("/.kati_stamp".data) (by decide) (by decide) (by decide)

theorem env_ne_stampTmp (dir sfx : List Char) : envFileName dir sfx ≠ stampTmpName dir sfx :=
  ne_of_take_two dir _ _ ("/env".data) ("/.kati_stamp".data) (by decide) (by decide) (by decide)

theorem sh_ne_stampTmp (dir sfx : List Char) : shFileName dir sfx ≠ stampTmpName dir sfx :=
  ne_of_take_two dir _ _ ("/ninja".data) ("/.kati_stamp".data) (by decide) (by decide) (by decide)

theorem generateTrace_decomp (dir sfx : List Char) (d : StampData)
    (ninjaOut envOut shOut : List StField) :
    generateTrace dir sfx d ninjaOut envOut shOut =
      (FsOp.unlink (stampName dir sfx) ::
        (fileWriteOps (ninjaFileName dir sfx) ninjaOut ++
         fileWriteOps (envFileName dir sfx) envOut ++
         fileWriteOps (shFileName dir sfx) shOut ++
         fileWriteOps (stampTmpName dir sfx) (serializeStamp d))) ++
      [FsOp.rename (stampTmpName dir sfx) (stampName dir sfx)] := by
  simp [generateTrace, List.append_assoc]

theorem mid_not_touches_stamp (dir sfx : List Char) (d : StampData)
    (ninjaOut envOut shOut : List StField) :
    ∀ op ∈ fileWriteOps (ninjaFileName dir sfx) ninjaOut ++
           fileWriteOps (envFileName dir sfx) envOut ++
           fileWriteOps (shFileName dir sfx) shOut ++
           fileWriteOps (stampTmpName dir sfx) (serializeStamp d),
      touches (stampName dir sfx) op = false := by
  intro op hop
  simp only [List.mem_append] at hop
  rcases hop with ((h | h) | h) | h
  · exact touches_fileWriteOps _ _ _ (ninja_ne_stampName dir sfx) op h
  · exact touches_fileWriteOps _ _ _ (env_ne_stampName dir sfx) op h
  · exact touches_fileWriteOps _ _ _ (sh_ne_stampName dir sfx) op h
  · exact touches_fileWriteOps _ _ _ (Ne.symm (stampName_ne_tmp dir sfx)) op h

/-- C4 (amended): over the whole `Generate` run the canonical stamp path
holds the initial (previous) content before any operation, holds nothing
from the initial unlink up to the final rename (in particular never a
partially written stamp), and holds the complete newly serialized stamp
exactly from the final rename on. -/
theorem generateStamp_atomic (dir sfx : List Char) (d : StampData)
    (ninjaOut envOut shOut : List StField) (s0 : FsState) (k : Nat) :
    (k = 0 →
      runOps s0 ((generateTrace dir sfx d ninjaOut envOut shOut).take k)
        (stampName dir sfx) = s0 (stampName dir sfx)) ∧
    (1 ≤ k → k < (generateTrace dir sfx d ninjaOut envOut shOut).length →
      runOps s0 ((generateTrace dir sfx d ninjaOut envOut shOut).take k)
        (stampName dir sfx) = none) ∧
    ((generateTrace dir sfx d ninjaOut envOut shOut).length ≤ k →
      runOps s0 ((generateTrace dir sfx d ninjaOut envOut shOut).take k)
        (stampName dir sfx) = some ⟨serializeStamp d, true⟩) := by
  refine ⟨?_, ?_, ?_⟩
  · intro hk; subst hk; rfl
  · intro hk1 hk2
    obtain ⟨k', rfl⟩ : ∃ k', k = k' + 1 := ⟨k - 1, by omega⟩
    rw [generateTrace_decomp] at hk2 ⊢
    have hle : k' + 1 ≤ (FsOp.unlink (stampName dir sfx) ::
        (fileWriteOps (ninjaFileName dir sfx) ninjaOut ++
         fileWriteOps (envFileName dir sfx) envOut ++
         fileWriteOps (shFileName dir sfx) shOut ++
         fileWriteOps (stampTmpName dir sfx) (serializeStamp d))).length := by
      simp at hk2 ⊢; omega
    rw [List.take_append_of_le_length hle, List.take_succ_cons]
    calc runOps s0 (FsOp.unlink (stampName dir sfx) ::
            (fileWriteOps (ninjaFileName dir sfx) ninjaOut ++
             fileWriteOps (envFileName dir sfx) envOut ++
             fileWriteOps (shFileName dir sfx) shOut ++
             fileWriteOps (stampTmpName dir sfx) (serializeStamp d)).take k')
          (stampName dir sfx)
        = runOps (applyOp s0 (FsOp.unlink (stampName dir sfx)))
            ((fileWriteOps (ninjaFileName dir sfx) ninjaOut ++
              fileWriteOps (envFileName dir sfx) envOut ++
              fileWriteOps (shFileName dir sfx) shOut ++
              fileWriteOps (stampTmpName dir sfx) (serializeStamp d)).take k')
            (stampName dir sfx) := rfl
      _ = (applyOp s0 (FsOp.unlink (stampName dir sfx))) (stampName dir sfx) :=
          runOps_untouched _ _ _ (fun op hop =>
            mid_not_touches_stamp dir sfx d ninjaOut envOut shOut op
              (List.take_subset _ _ hop))
      _ = none := by simp [applyOp]
  · intro hk
    rw [generateTrace_decomp] at hk ⊢
    rw [List.take_of_length_le hk]
    rw [runOps, List.foldl_append]
    have hfront : (FsOp.unlink (stampName dir sfx) ::
        (fileWriteOps (ninjaFileName dir sfx) ninjaOut ++
         fileWriteOps (envFileName dir sfx) envOut ++
         fileWriteOps (shFileName dir sfx) shOut ++
         fileWriteOps (stampTmpName dir sfx) (serializeStamp d))) =
        (FsOp.unlink (stampName dir sfx) ::
          (fileWriteOps (ninjaFileName dir sfx) ninjaOut ++
           fileWriteOps (envFileName dir sfx) envOut ++
           fileWriteOps (shFileName dir sfx) shOut)) ++
        fileWriteOps (stampTmpName dir sfx) (serializeStamp d) := by
      simp [List.append_assoc]
    rw [hfront, List.foldl_append]
    simp [applyOp]
    exact runOps_fileWriteOps_self _ _ _

/-- C4 counterexample: `Generate` unlinks the canonical stamp before doing
anything else (ninja.cc:204), so one step into the run the canonical path
holds nothing — neither the complete previous stamp (which was there before
the run) nor the complete new stamp — refuting "at every point of a run the
canonical stamp path holds either the complete previous stamp or the
complete new stamp". -/
theorem generateStamp_counterexample :
    runOps (fsPrev (".".data) []) ((generateTrace (".".data) [] stampD0 [] [] []).take 1)
      (stampName (".".data) []) = none ∧
    fsPrev (".".data) [] (stampName (".".data) []) =
      some ⟨serializeStamp stampDPrev, true⟩ ∧
    (none : Option FileVal) ≠ some ⟨serializeStamp stampDPrev, true⟩ ∧
    (none : Option FileVal) ≠ some ⟨serializeStamp stampD0, true⟩ := by decide

theorem generateStamp_atomic_witness :
    runOps (fsPrev (".".data) []) ((generateTrace (".".data) [] stampD0 [] [] []).take 1)
      (stampName (".".data) []) = none :=
  (generateStamp_atomic (".".data) [] stampD0 [] [] [] (fsPrev (".".data) []) 1).2.1
    (by decide) (by decide)

theorem genShellScript_description_witness :
    ∃ u, genShellScript { flags0 with detectAndroidEcho := true } ("t".data)
        [⟨"echo yo".data, false, false⟩] ("build $out".data) = some ([], "yo".data, u) :=
  (genShellScript_description { flags0 with detectAndroidEcho := true } ("t".data)
    ("echo yo".data) ("yo".data) ("build $out".data)
    ("echo yo".data, "echo yo".data) rfl (by decide) (by decide)).1
